import Mathlib

/-!
Shallow embedding of the AutoTagWords plugin (src/main.ts).

Text is modelled as `List Char`.  The plugin builds, for every tag in its
registry, the JavaScript regular expression

    new RegExp(`(?<!#)\b${escapeRegExp(word)}\b`, 'gi')

where `word = tag.slice(1).toLowerCase()`, and applies
`text.replace(regex, `#${word}`)`.  After `escapeRegExp` the pattern body is a
literal word, so the regex semantics is: a case-insensitive occurrence of the
literal word, at a `\b` word boundary on both sides, not immediately preceded
by `#`.  The embedding below implements exactly this ECMAScript semantics on
the ASCII fragment (ASCII case folding, ASCII `\w` word characters, global
scan with the standard empty-match advance, and `GetSubstitution` expansion of
`$`-patterns in the replacement string).
-/

namespace AutoTagWords

/-- ECMAScript `\w` / `\b` word characters: `[A-Za-z0-9_]`. -/
def isWordChar (c : Char) : Bool :=
  decide ((65 ≤ c.toNat ∧ c.toNat ≤ 90) ∨ (97 ≤ c.toNat ∧ c.toNat ≤ 122) ∨
    (48 ≤ c.toNat ∧ c.toNat ≤ 57) ∨ c.toNat = 95)

/-- ASCII lower-casing, as `String.prototype.toLowerCase` acts on ASCII. -/
def lowerChar (c : Char) : Char :=
  if 65 ≤ c.toNat ∧ c.toNat ≤ 90 then Char.ofNat (c.toNat + 32) else c

/-- Is the character at index `i` a word character (out of range: no)? -/
def isWordAt (t : List Char) (i : Nat) : Bool :=
  match t[i]? with
  | some c => isWordChar c
  | none => false

/-- Is the character just before position `p` a word character? -/
def prevIsWord (t : List Char) (p : Nat) : Bool :=
  if p = 0 then false else isWordAt t (p - 1)

/-- The regex `\b` assertion at position `p` of `t`. -/
def boundaryAt (t : List Char) (p : Nat) : Bool :=
  prevIsWord t p != isWordAt t p

/-- The lookbehind `(?<!#)` fails at `p` iff the previous character is `#`. -/
def prevIsHash (t : List Char) (p : Nat) : Bool :=
  if p = 0 then false else decide (t[p - 1]? = some '#')

/-- Does the regex `(?<!#)\b w \b` (with flag `i`, `w` a lower-cased literal
word) match at position `p` of `t`?  For the empty word the two `\b`
assertions coincide, exactly as in the pattern `(?<!#)\b\b`. -/
def matchAt (w t : List Char) (p : Nat) : Bool :=
  decide (p + w.length ≤ t.length) &&
  decide (((t.drop p).take w.length).map lowerChar = w) &&
  !(prevIsHash t p) &&
  boundaryAt t p &&
  boundaryAt t (p + w.length)

/-- Positions of the successive matches of the global (`g`) scan, starting at
position `p`: the scan takes the leftmost match at or after `p` and resumes
after it; an empty match advances the scan position by one
(`AdvanceStringIndex`).  `fuel` bounds the recursion; `text.length + 2` is
always sufficient since the position grows by at least one per step. -/
def scanPosAux (w t : List Char) : Nat → Nat → List Nat
  | 0, _ => []
  | fuel + 1, p =>
    if p ≤ t.length then
      if matchAt w t p then p :: scanPosAux w t fuel (p + max w.length 1)
      else scanPosAux w t fuel (p + 1)
    else []

/-- All match positions of the global scan of `t` for word `w`. -/
def scanPos (w t : List Char) : List Nat :=
  scanPosAux w t (t.length + 2) 0

/-- ECMAScript `GetSubstitution` for a replacement string with no capture
groups: `$$`, `$&`, `` $` `` and `$'` are expanded; any other `$` sequence is
literal.  `pre` is the text before the match, `m` the matched text, `suf` the
text after the match. -/
def getSubstitution (repl pre m suf : List Char) : List Char :=
  match repl with
  | [] => []
  | c :: rest =>
    if c = '$' then
      match rest with
      | [] => ['$']
      | d :: rest2 =>
        if d = '$' then '$' :: getSubstitution rest2 pre m suf
        else if d = '&' then m ++ getSubstitution rest2 pre m suf
        else if d = Char.ofNat 96 then pre ++ getSubstitution rest2 pre m suf
        else if d = Char.ofNat 39 then suf ++ getSubstitution rest2 pre m suf
        else '$' :: d :: getSubstitution rest2 pre m suf
    else c :: getSubstitution rest pre m suf

/-- Rebuild the text from the list of match positions: text between matches is
copied verbatim, each match contributes the expanded replacement.  `cur` is
the position up to which output has been emitted. -/
def spliceAux (w repl t : List Char) : List Nat → Nat → List Char
  | [], cur => t.drop cur
  | q :: qs, cur =>
    (t.drop cur).take (q - cur) ++
    getSubstitution repl (t.take q) ((t.drop q).take w.length) (t.drop (q + w.length)) ++
    spliceAux w repl t qs (q + w.length)

/-- `text.replace(regex, repl)` with the `g` flag, for the tag regex of word
`w`. -/
def jsReplaceAll (w repl t : List Char) : List Char :=
  spliceAux w repl t (scanPos w t) 0

/-- The characters escaped by `escapeRegExp` (the class `[.*+?^${}()|[\]\\]`). -/
def isRegexMeta (c : Char) : Bool :=
  c ∈ ['.', '*', '+', '?', '^', '$', Char.ofNat 123, Char.ofNat 125,
       '(', ')', '|', '[', ']', '\\']

/-- `escapeRegExp`: prefix every regex metacharacter with a backslash
(`string.replace(/[.*+?^${}()|[\]\\]/g, '\\$&')`). -/
def escapeRegExp (s : List Char) : List Char :=
  s.foldr (fun c acc => if isRegexMeta c then '\\' :: c :: acc else c :: acc) []

/-- `tag.slice(1).toLowerCase()`: the bare word of a tag. -/
def bareWord (tag : List Char) : List Char :=
  (tag.drop 1).map lowerChar

/-- One iteration of the tag loop in `processFile`: replace, and update the
working copy and the `changed` flag only when the text differs. -/
def tagStep (st : List Char × Bool) (tag : List Char) : List Char × Bool :=
  let w := bareWord tag
  let updated := jsReplaceAll w ('#' :: w) st.1
  if updated = st.1 then st else (updated, true)

/-- The content transformation inside `processFile`: fold the per-tag
replacement over the tag registry, accumulating into a working copy. -/
def rewritePass (tags : List (List Char)) (text : List Char) : List Char × Bool :=
  tags.foldl tagStep (text, false)

/-- One iteration of the tag loop in `convertWordsToTags`.  Note the source
applies every tag's regex to the original `text` (the local `const text` is
never reassigned) and calls `editor.setValue(newText)` whenever that single
tag's replacement differs from the original, so the buffer ends up holding the
last differing single-tag replacement of the original text. -/
def convertStep (text0 : List Char) (buf : List Char) (tag : List Char) : List Char :=
  let w := bareWord tag
  let nt := jsReplaceAll w ('#' :: w) text0
  if nt = text0 then buf else nt

/-- Final editor buffer content after `convertWordsToTags` runs on a buffer
holding `text0`. -/
def convertWordsToTags (tags : List (List Char)) (text0 : List Char) : List Char :=
  tags.foldl (convertStep text0) text0

/-- A vault file: identity (path), extension, content, and flags saying
whether `vault.read` / `vault.modify` would throw for it. -/
structure VFile where
  name : List Char
  extension : List Char
  content : List Char
  readFails : Bool
  writeFails : Bool
deriving DecidableEq, Repr

/-- The markdown extension. -/
def mdExt : List Char := ['m', 'd']

/-- JavaScript `String.prototype.includes`: `needle` occurs somewhere in
`hay`. -/
def includesSub (hay needle : List Char) : Bool :=
  hay.tails.any (fun tl => needle.isPrefixOf tl)

/-- Find a file by name in the vault. -/
def lookupFile (v : List VFile) (n : List Char) : Option VFile :=
  v.find? (fun f => f.name = n)

/-- `vault.modify`: set the content of the file named `n`. -/
def writeFile (v : List VFile) (n c : List Char) : List VFile :=
  v.map (fun f => if f.name = n then { f with content := c } else f)

/-- `processFile`: return early unless `file.extension.includes('md')`; then
read (a read failure is caught, leaving the vault unchanged), run the rewrite
pass, and write back only if `changed` (a write failure is caught, leaving the
vault unchanged). -/
def processFile (tags : List (List Char)) (v : List VFile) (n : List Char) :
    List VFile :=
  match lookupFile v n with
  | none => v
  | some f =>
    if !includesSub f.extension mdExt then v
    else if f.readFails then v
    else
      let r := rewritePass tags f.content
      if r.2 then (if f.writeFails then v else writeFile v n r.1) else v

/-- The effect of `processFile` on the single file it targets. -/
def fileOutcome (tags : List (List Char)) (f : VFile) : VFile :=
  if !includesSub f.extension mdExt then f
  else if f.readFails then f
  else
    let r := rewritePass tags f.content
    if r.2 then (if f.writeFails then f else { f with content := r.1 }) else f

/-- `vault.getMarkdownFiles()`: the files whose extension is exactly `md`. -/
def markdownFiles (v : List VFile) : List VFile :=
  v.filter (fun f => f.extension = mdExt)

/-- `processAllFiles`: take a snapshot of the markdown file list and process
each file in order, sequentially. -/
def processAllFiles (tags : List (List Char)) (v : List VFile) : List VFile :=
  ((markdownFiles v).map VFile.name).foldl (processFile tags) v

/-- One step of the tag-collection loop in `updateTags`: push the tag unless
it is already present. -/
def addTag (acc : List (List Char)) (t : List Char) : List (List Char) :=
  if t ∈ acc then acc else acc ++ [t]

/-- `updateTags`: reset `this.tags` to `[]`, then for every file whose
metadata cache has tags (`cache?.tags`, modelled as `Option`), add each tag
not already collected.  `prev` is the previous registry contents, discarded by
the reset. -/
def updateTags (prev : List (List Char))
    (docs : List (Option (List (List Char)))) : List (List Char) :=
  docs.foldl
    (fun acc o => match o with
      | none => acc
      | some ts => ts.foldl addTag acc)
    []

/-- Modelled from the spec: the replacement behaviour the claim attributes to
the code, in which each matched occurrence is replaced by the literal
characters of the replacement string (no `$`-pattern expansion).  Used only to
compare with `spliceAux` / `rewritePass`. -/
def spliceLitAux (w repl t : List Char) : List Nat → Nat → List Char
  | [], cur => t.drop cur
  | q :: qs, cur =>
    (t.drop cur).take (q - cur) ++ repl ++ spliceLitAux w repl t qs (q + w.length)

/-- Literal-replacement variant of `jsReplaceAll`. -/
def jsReplaceAllLit (w repl t : List Char) : List Char :=
  spliceLitAux w repl t (scanPos w t) 0

/-- Literal-replacement variant of `tagStep`. -/
def tagStepLit (st : List Char × Bool) (tag : List Char) : List Char × Bool :=
  let w := bareWord tag
  let updated := jsReplaceAllLit w ('#' :: w) st.1
  if updated = st.1 then st else (updated, true)

/-- Literal-replacement variant of `rewritePass`. -/
def rewritePassLit (tags : List (List Char)) (text : List Char) :
    List Char × Bool :=
  tags.foldl tagStepLit (text, false)

end AutoTagWords

namespace AutoTagWords

/-! ### General lemmas about the embedding -/

theorem toNat_ofNat_small {n : Nat} (h : n < 55296) : (Char.ofNat n).toNat = n := by
  have hv : Nat.isValidChar n := Or.inl h
  rw [Char.ofNat, dif_pos hv]
  rfl

theorem isWordChar_lowerChar (c : Char) : isWordChar (lowerChar c) = isWordChar c := by
  unfold lowerChar
  by_cases h : 65 ≤ c.toNat ∧ c.toNat ≤ 90
  · rw [if_pos h]
    unfold isWordChar
    rw [toNat_ofNat_small (by omega)]
    rw [decide_eq_decide]
    omega
  · rw [if_neg h]

theorem matchAt_iff {w t : List Char} {p : Nat} :
    matchAt w t p = true ↔
      p + w.length ≤ t.length ∧
      ((t.drop p).take w.length).map lowerChar = w ∧
      prevIsHash t p = false ∧
      boundaryAt t p = true ∧ boundaryAt t (p + w.length) = true := by
  simp [matchAt, Bool.and_eq_true, Bool.not_eq_true', and_assoc]

theorem scanPosAux_eq_nil {w t : List Char} {fuel p : Nat}
    (h : ∀ q, p ≤ q → q ≤ t.length → matchAt w t q = false) :
    scanPosAux w t fuel p = [] := by
  induction fuel generalizing p with
  | zero => rfl
  | succ fuel ih =>
    unfold scanPosAux
    by_cases hp : p ≤ t.length
    · rw [if_pos hp, h p le_rfl hp]
      exact ih fun q hq hql => h q (by omega) hql
    · rw [if_neg hp]

theorem scanPos_eq_nil {w t : List Char}
    (h : ∀ q, q ≤ t.length → matchAt w t q = false) : scanPos w t = [] :=
  scanPosAux_eq_nil fun q _ hq => h q hq

theorem mem_scanPosAux {w t : List Char} {fuel p q : Nat}
    (hq : q ∈ scanPosAux w t fuel p) : matchAt w t q = true ∧ p ≤ q := by
  induction fuel generalizing p with
  | zero => simp [scanPosAux] at hq
  | succ fuel ih =>
    unfold scanPosAux at hq
    by_cases hp : p ≤ t.length
    · rw [if_pos hp] at hq
      by_cases hm : matchAt w t p
      · rw [if_pos hm] at hq
        rcases List.mem_cons.mp hq with rfl | hq2
        · exact ⟨hm, le_rfl⟩
        · have := ih hq2
          exact ⟨this.1, by omega⟩
      · rw [if_neg hm] at hq
        have := ih hq
        exact ⟨this.1, by omega⟩
    · rw [if_neg hp] at hq
      simp at hq

theorem mem_scanPos {w t : List Char} {q : Nat} (hq : q ∈ scanPos w t) :
    matchAt w t q = true :=
  (mem_scanPosAux hq).1

theorem getSubstitution_of_no_dollar {repl pre m suf : List Char}
    (h : '$' ∉ repl) : getSubstitution repl pre m suf = repl := by
  induction repl with
  | nil => rfl
  | cons c rest ih =>
    have hc : ¬c = '$' := fun hc => h (hc ▸ List.mem_cons_self c rest)
    have hr : '$' ∉ rest := fun hr => h (List.mem_cons_of_mem c hr)
    unfold getSubstitution
    rw [if_neg hc, ih hr]

theorem jsReplaceAll_eq_self {w repl t : List Char}
    (h : ∀ q, q ≤ t.length → matchAt w t q = false) : jsReplaceAll w repl t = t := by
  unfold jsReplaceAll
  rw [scanPos_eq_nil h]
  rfl

theorem scanPosAux_succ (w t : List Char) (fuel p : Nat) :
    scanPosAux w t (fuel + 1) p =
      if p ≤ t.length then
        if matchAt w t p then p :: scanPosAux w t fuel (p + max w.length 1)
        else scanPosAux w t fuel (p + 1)
      else [] := rfl

theorem scanPos_of_match_zero {w t : List Char} (h0 : matchAt w t 0 = true)
    (hrest : ∀ q, 1 ≤ q → q ≤ t.length → matchAt w t q = false) :
    scanPos w t = [0] := by
  unfold scanPos
  rw [show t.length + 2 = (t.length + 1) + 1 from rfl, scanPosAux_succ,
    if_pos (Nat.zero_le _), h0, if_pos rfl,
    scanPosAux_eq_nil fun q hq hql => hrest q (by omega) hql]

end AutoTagWords

namespace AutoTagWords

/-! ### Claim theorems -/

/-- C1: the claim states that the stored-document rewrite (`processFile`) and
the live-editor rewrite (`convertWordsToTags`) produce the same final text on
every input.  The code violates this: `convertWordsToTags` applies each tag's
regex to the unmodified original buffer text (the local `const text` is never
reassigned), so with tags `#foo, #bar` on buffer `"foo bar"` the stored
rewrite produces `"#foo #bar"` while the editor is left with `"foo #bar"`,
the last single-tag replacement of the original. -/
theorem c1_live_vs_stored_rewrite_diverge :
    rewritePass ["#foo".toList, "#bar".toList] "foo bar".toList
      = ("#foo #bar".toList, true) ∧
    convertWordsToTags ["#foo".toList, "#bar".toList] "foo bar".toList
      = "foo #bar".toList ∧
    "foo #bar".toList ≠ "#foo #bar".toList := by
  refine ⟨by decide, by decide, by decide⟩

/-- C2: the claim states that a tag whose bare word is empty is skipped by the
rewrite pass.  The code has no such skip: for the tag `"#"` the bare word is
empty, the built regex is `(?<!#)\b\b`, which matches (emptily) at every word
boundary not preceded by `#`, and the replacement inserts `#` there.  On input
`"ab"` the pass returns `("#ab#", changed = true)` instead of the claimed
`("ab", changed = false)`. -/
theorem c2_empty_bare_word_not_skipped :
    bareWord "#".toList = [] ∧
    rewritePass ["#".toList] "ab".toList = ("#ab#".toList, true) := by
  refine ⟨by decide, by decide⟩

/-- C3: the claim states that the `#c++` rule rewrites every standalone
occurrence of `"c++"`.  Escaping works (the pattern body is the literal
`c\+\+`) and unrelated text such as `"c+"` is not matched, but the trailing
`\b` of `(?<!#)\bc\+\+\b` can only hold between a word and a non-word
character, and `'+'` is a non-word character, so `"c++"` followed by a space,
end of text, or any other non-word character never matches: the standalone
occurrences in `"c++"` and `"a c++ b"` are left unchanged (`changed = false`),
while `"c++x"` — not a standalone occurrence — is rewritten. -/
theorem c3_cpp_standalone_not_rewritten :
    escapeRegExp "c++".toList = "c\\+\\+".toList ∧
    rewritePass ["#c++".toList] "c++".toList = ("c++".toList, false) ∧
    rewritePass ["#c++".toList] "a c++ b".toList = ("a c++ b".toList, false) ∧
    rewritePass ["#c++".toList] "c+".toList = ("c+".toList, false) ∧
    rewritePass ["#c++".toList] "c++x".toList = ("#c++x".toList, true) := by
  refine ⟨by decide, by decide, by decide, by decide, by decide⟩

/-- C4: the claim states the rewrite pass is idempotent for every text and tag
set.  It is not: with the single tag `#a-a` (dashes are valid in tags and are
non-word characters) on `"a-a-a"`, the first pass tags the first of the two
overlapping occurrences, giving `"#a-a-a"`; in that output the second,
previously overlapped occurrence `"a-a"` (at the final three characters) now
qualifies, so a second pass changes the text again, to `"#a-#a-a"`. -/
theorem c4_rewrite_pass_not_idempotent :
    rewritePass ["#a-a".toList] "a-a-a".toList = ("#a-a-a".toList, true) ∧
    rewritePass ["#a-a".toList] "#a-a-a".toList = ("#a-#a-a".toList, true) ∧
    ("#a-#a-a".toList, true) ≠ (("#a-a-a".toList, true) : List Char × Bool) := by
  refine ⟨by decide, by decide, by decide⟩

/-- C9: the claim states that `processFile` returns, without reading or
writing, for every file that is not a markdown note.  The code's guard is
`!file.extension.includes('md')`, and `includes` is substring containment, so
a file with extension `"cmd"` — not a markdown note (its own comment says
"ends in .md") — passes the guard, is read, rewritten and written back. -/
theorem c9_cmd_extension_processed :
    includesSub "cmd".toList mdExt = true ∧
    processFile ["#foo".toList]
      [⟨"x".toList, "cmd".toList, "foo".toList, false, false⟩] "x".toList
      = [⟨"x".toList, "cmd".toList, "#foo".toList, false, false⟩] := by
  refine ⟨by decide, by decide⟩

/-- C10 counterexample: the claim states each matched occurrence is replaced
by exactly `#` followed by the bare word, character for character, whatever
the bare word contains.  ECMAScript `String.replace` expands `$`-patterns in
the replacement string: for the tag `#a$&` the replacement ``#a$&`` expands
`$&` to the matched text, so `"a$&b"` becomes `"#aa$&b"`, not the claimed
literal `"#a$&b"`. -/
theorem c10_dollar_counterexample :
    rewritePass ["#a$&".toList] "a$&b".toList = ("#aa$&b".toList, true) ∧
    rewritePassLit ["#a$&".toList] "a$&b".toList = ("#a$&b".toList, true) ∧
    ("#aa$&b".toList, true) ≠ (("#a$&b".toList, true) : List Char × Bool) := by
  refine ⟨by decide, by decide, by decide⟩

end AutoTagWords

namespace AutoTagWords

/-- C5: already-tagged text is a fixed point.  The lookbehind `(?<!#)` makes
any position whose previous character is `#` unmatchable (first conjunct), so
`#project` is never turned into `##project`; consequently on any text in which
every case-insensitive occurrence of `project` is immediately preceded by `#`
— in particular text already containing only tagged occurrences — the pass
with tag set `{#project}` returns the text byte-identical with
`changed = false` (second conjunct). -/
theorem c5_already_tagged_fixed_point :
    (∀ t p, prevIsHash t p = true →
      matchAt (bareWord "#project".toList) t p = false) ∧
    (∀ t : List Char,
      (∀ i, i < t.length →
        ((t.drop i).take 7).map lowerChar = "project".toList →
        0 < i ∧ t[i - 1]? = some '#') →
      rewritePass ["#project".toList] t = (t, false)) := by
  have hw : bareWord "#project".toList = "project".toList := by decide
  constructor
  · intro t p hp
    simp [matchAt, hp]
  · intro t h
    have h7 : ("project".toList).length = 7 := by decide
    have hrep : jsReplaceAll "project".toList ('#' :: "project".toList) t = t := by
      apply jsReplaceAll_eq_self
      intro q hq
      by_contra hb
      rw [Bool.not_eq_false, matchAt_iff] at hb
      obtain ⟨hlen, hslice, hhash, -, -⟩ := hb
      rw [h7] at hlen hslice
      have hqlt : q < t.length := by omega
      obtain ⟨hpos, hchar⟩ := h q hqlt hslice
      unfold prevIsHash at hhash
      rw [if_neg (by omega)] at hhash
      simp [hchar] at hhash
    unfold rewritePass
    rw [List.foldl_cons, List.foldl_nil]
    simp only [tagStep, hw]
    rw [hrep, if_pos rfl]

/-- Witness for C5 at a concrete already-tagged text. -/
theorem c5_witness :
    rewritePass ["#project".toList] "a #project b".toList
      = ("a #project b".toList, false) :=
  c5_already_tagged_fixed_point.2 _ (by decide)

theorem mem_addTag {acc : List (List Char)} {t x : List Char} :
    x ∈ addTag acc t ↔ x ∈ acc ∨ x = t := by
  unfold addTag
  split
  · rename_i h
    constructor
    · exact Or.inl
    · rintro (hx | rfl)
      · exact hx
      · exact h
  · simp

theorem nodup_addTag {acc : List (List Char)} {t : List Char} (h : acc.Nodup) :
    (addTag acc t).Nodup := by
  unfold addTag
  split
  · exact h
  · rename_i ht
    rw [List.nodup_append]
    refine ⟨h, List.nodup_singleton t, ?_⟩
    intro a ha hat
    rw [List.mem_singleton] at hat
    exact ht (hat ▸ ha)

theorem mem_foldl_addTag {x : List Char} :
    ∀ (ts acc : List (List Char)), x ∈ ts.foldl addTag acc ↔ x ∈ acc ∨ x ∈ ts := by
  intro ts
  induction ts with
  | nil => simp
  | cons t ts ih =>
    intro acc
    rw [List.foldl_cons, ih, mem_addTag, List.mem_cons]
    tauto

theorem nodup_foldl_addTag :
    ∀ (ts acc : List (List Char)), acc.Nodup → (ts.foldl addTag acc).Nodup := by
  intro ts
  induction ts with
  | nil => exact fun _ h => h
  | cons t ts ih =>
    intro acc h
    rw [List.foldl_cons]
    exact ih _ (nodup_addTag h)

theorem mem_updateTags_aux {x : List Char} :
    ∀ (docs : List (Option (List (List Char)))) (acc : List (List Char)),
      (x ∈ docs.foldl
        (fun acc o => match o with | none => acc | some ts => ts.foldl addTag acc)
        acc) ↔
      x ∈ acc ∨ ∃ ts, some ts ∈ docs ∧ x ∈ ts := by
  intro docs
  induction docs with
  | nil => simp
  | cons o docs ih =>
    intro acc
    rw [List.foldl_cons]
    cases o with
    | none =>
      rw [ih]
      simp
    | some ts =>
      rw [ih, mem_foldl_addTag]
      constructor
      · rintro ((hx | hx) | ⟨ts2, hts2, hx⟩)
        · exact Or.inl hx
        · exact Or.inr ⟨ts, List.mem_cons_self _ _, hx⟩
        · exact Or.inr ⟨ts2, List.mem_cons_of_mem _ hts2, hx⟩
      · rintro (hx | ⟨ts2, hts2, hx⟩)
        · exact Or.inl (Or.inl hx)
        · rcases List.mem_cons.mp hts2 with heq | hmem
          · cases Option.some.inj heq
            exact Or.inl (Or.inr hx)
          · exact Or.inr ⟨ts2, hmem, hx⟩

theorem nodup_updateTags_aux :
    ∀ (docs : List (Option (List (List Char)))) (acc : List (List Char)),
      acc.Nodup →
      (docs.foldl
        (fun acc o => match o with | none => acc | some ts => ts.foldl addTag acc)
        acc).Nodup := by
  intro docs
  induction docs with
  | nil => exact fun _ h => h
  | cons o docs ih =>
    intro acc h
    rw [List.foldl_cons]
    cases o with
    | none => exact ih _ h
    | some ts => exact ih _ (nodup_foldl_addTag _ _ h)

/-- C6: `updateTags` fully replaces the registry with exactly the distinct
tags of the current document collection: the result ignores the previous
registry contents (the reset `this.tags = []`), has no duplicates, its
members are exactly the tags occurring in some document's cache, and on the
document pair `{#a,#b}`, `{#b,#c}` it yields exactly `[#a,#b,#c]`; being a
function of the documents alone, a repeated refresh over unchanged documents
yields an identical set. -/
theorem c6_update_tags_rebuild :
    (∀ prev prev' docs, updateTags prev docs = updateTags prev' docs) ∧
    (∀ prev docs, (updateTags prev docs).Nodup) ∧
    (∀ prev docs (x : List Char),
      x ∈ updateTags prev docs ↔ ∃ ts, some ts ∈ docs ∧ x ∈ ts) ∧
    updateTags [] [some ["#a".toList, "#b".toList], some ["#b".toList, "#c".toList]]
      = ["#a".toList, "#b".toList, "#c".toList] := by
  refine ⟨fun _ _ _ => rfl, fun prev docs => ?_, fun prev docs x => ?_, by decide⟩
  · exact nodup_updateTags_aux docs [] List.nodup_nil
  · rw [updateTags, mem_updateTags_aux]
    simp

theorem spliceAux_eq_spliceLitAux {w repl t : List Char} (h : '$' ∉ repl) :
    ∀ (qs : List Nat) (cur : Nat),
      spliceAux w repl t qs cur = spliceLitAux w repl t qs cur := by
  intro qs
  induction qs with
  | nil => intro cur; rfl
  | cons q qs ih =>
    intro cur
    unfold spliceAux spliceLitAux
    rw [getSubstitution_of_no_dollar h, ih]

theorem foldl_tagStep_eq_lit :
    ∀ (tags : List (List Char)), (∀ tag ∈ tags, '$' ∉ bareWord tag) →
      ∀ st, tags.foldl tagStep st = tags.foldl tagStepLit st := by
  intro tags
  induction tags with
  | nil => intro _ st; rfl
  | cons tag tags ih =>
    intro h st
    have htag : '$' ∉ '#' :: bareWord tag := by
      intro hm
      rcases List.mem_cons.mp hm with heq | hmem
      · exact absurd heq (by decide)
      · exact h tag (List.mem_cons_self _ _) hmem
    have hstep : tagStep st tag = tagStepLit st tag := by
      simp only [tagStep, tagStepLit, jsReplaceAll, jsReplaceAllLit]
      rw [spliceAux_eq_spliceLitAux htag]
    rw [List.foldl_cons, List.foldl_cons, hstep]
    exact ih (fun tg htg => h tg (List.mem_cons_of_mem _ htg)) _

/-- C10 amended: for tag sets none of whose bare words contain `$`, every
matched occurrence is replaced by exactly `#` + bare word, character for
character (the pass coincides with the literal-replacement variant); a bare
word containing `$` can instead be expanded as an ECMAScript replacement
pattern (see the counterexample with `$&`). -/
theorem c10_literal_replacement_dollar_free (tags : List (List Char))
    (text : List Char) (h : ∀ tag ∈ tags, '$' ∉ bareWord tag) :
    rewritePass tags text = rewritePassLit tags text := by
  unfold rewritePass rewritePassLit
  exact foldl_tagStep_eq_lit tags h _

/-- Witness for C10 on a `$`-free tag set. -/
theorem c10_witness :
    rewritePass ["#foo".toList] "foo x".toList
      = rewritePassLit ["#foo".toList] "foo x".toList :=
  c10_literal_replacement_dollar_free _ _ (by decide)

end AutoTagWords

namespace AutoTagWords

theorem fileOutcome_name (tags : List (List Char)) (f : VFile) :
    (fileOutcome tags f).name = f.name := by
  simp only [fileOutcome]
  split
  · rfl
  · split
    · rfl
    · split
      · split <;> rfl
      · rfl

theorem map_step_eq_self {tags : List (List Char)} {v : List VFile} {n : List Char}
    (h : ∀ g ∈ v, g.name = n → fileOutcome tags g = g) :
    v.map (fun g => if g.name = n then fileOutcome tags g else g) = v := by
  have hpt : ∀ g ∈ v, (if g.name = n then fileOutcome tags g else g) = g := by
    intro g hg
    by_cases hgn : g.name = n
    · rw [if_pos hgn, h g hg hgn]
    · rw [if_neg hgn]
  rw [List.map_congr_left hpt]
  exact List.map_id v

theorem processFile_eq_map (tags : List (List Char)) {v : List VFile} {n : List Char}
    (hnd : (v.map VFile.name).Nodup) :
    processFile tags v n
      = v.map (fun g => if g.name = n then fileOutcome tags g else g) := by
  unfold processFile
  cases hl : lookupFile v n with
  | none =>
    have hno : ∀ g ∈ v, ¬g.name = n := by
      intro g hg
      have := List.find?_eq_none.mp hl g hg
      simpa using this
    have hmap : v.map (fun g => if g.name = n then fileOutcome tags g else g)
        = v.map (fun g => g) :=
      List.map_congr_left fun g hg => if_neg (hno g hg)
    rw [hmap]
    exact (List.map_id v).symm
  | some f =>
    have hfv : f ∈ v := List.mem_of_find?_eq_some hl
    have hfn : f.name = n := by
      have := List.find?_some hl
      simpa using this
    have huniq : ∀ g ∈ v, g.name = n → g = f := fun g hg hgn =>
      List.inj_on_of_nodup_map hnd hg hfv (by rw [hgn, hfn])
    have key : fileOutcome tags f = f →
        v.map (fun g => if g.name = n then fileOutcome tags g else g) = v :=
      fun hout => map_step_eq_self fun g hg hgn => by rw [huniq g hg hgn, hout]
    by_cases hinc : includesSub f.extension mdExt
    · by_cases hrf : f.readFails
      · rw [key (by simp [fileOutcome, hinc, hrf])]
        simp [hinc, hrf]
      · by_cases hch : (rewritePass tags f.content).2
        · by_cases hwf : f.writeFails
          · rw [key (by simp [fileOutcome, hinc, hrf, hch, hwf])]
            simp [hinc, hrf, hch, hwf]
          · have hwr : writeFile v n (rewritePass tags f.content).1
                = v.map (fun g => if g.name = n then fileOutcome tags g else g) := by
              unfold writeFile
              apply List.map_congr_left
              intro g hg
              by_cases hgn : g.name = n
              · rw [if_pos hgn, if_pos hgn]
                have hgf := huniq g hg hgn
                subst hgf
                simp [fileOutcome, hinc, hrf, hch, hwf]
              · rw [if_neg hgn, if_neg hgn]
            simp only [hinc, hrf, hch, hwf]
            simpa using hwr
        · rw [key (by simp [fileOutcome, hinc, hrf, hch])]
          simp [hinc, hrf, hch]
    · rw [key (by simp [fileOutcome, hinc])]
      simp [hinc]

theorem foldl_processFile_eq (tags : List (List Char)) :
    ∀ (ns : List (List Char)), ns.Nodup → ∀ (v : List VFile),
      (v.map VFile.name).Nodup →
      ns.foldl (processFile tags) v
        = v.map (fun f => if f.name ∈ ns then fileOutcome tags f else f) := by
  intro ns
  induction ns with
  | nil =>
    intro _ v _
    simp
  | cons nm ns ih =>
    intro hns v hv
    rw [List.foldl_cons, processFile_eq_map tags hv]
    have hnames : ((v.map fun g => if g.name = nm then fileOutcome tags g else g).map
        VFile.name) = v.map VFile.name := by
      rw [List.map_map]
      apply List.map_congr_left
      intro g hg
      by_cases hgn : g.name = nm
      · simp [Function.comp, hgn, fileOutcome_name]
      · simp [Function.comp, hgn]
    rw [ih hns.of_cons _ (hnames ▸ hv), List.map_map]
    apply List.map_congr_left
    intro f hf
    by_cases hfn : f.name = nm
    · have hnot : nm ∉ ns := (List.nodup_cons.mp hns).1
      simp [Function.comp, hfn, fileOutcome_name, hnot]
    · simp [Function.comp, hfn, List.mem_cons]

/-- C7: per-document error isolation of the full-collection scan.  Under
distinct file names, `processAllFiles` maps each markdown file to its own
`fileOutcome` (computed from that file's content and failure flags alone) and
leaves every other file untouched — so a read or write failure of one
document (its `readFails`/`writeFails` flag, caught by the `try/catch`) never
affects the processing of the remaining documents, and the scan, a total
function, never propagates the failure to the host. -/
theorem c7_batch_isolation (tags : List (List Char)) (v : List VFile)
    (h : (v.map VFile.name).Nodup) :
    processAllFiles tags v
      = v.map (fun f => if f.extension = mdExt then fileOutcome tags f else f) := by
  unfold processAllFiles
  have hsub : ((markdownFiles v).map VFile.name).Sublist (v.map VFile.name) :=
    List.Sublist.map VFile.name (List.filter_sublist v)
  have hns : ((markdownFiles v).map VFile.name).Nodup := List.Nodup.sublist hsub h
  rw [foldl_processFile_eq tags _ hns v h]
  apply List.map_congr_left
  intro f hf
  have hiff : (f.name ∈ (markdownFiles v).map VFile.name) ↔ f.extension = mdExt := by
    constructor
    · intro hmem
      rw [List.mem_map] at hmem
      obtain ⟨g, hgmem, hgname⟩ := hmem
      rw [markdownFiles] at hgmem
      have hgv : g ∈ v := List.mem_of_mem_filter hgmem
      have hgext : g.extension = mdExt := by
        have := List.of_mem_filter hgmem
        simpa using this
      have hgf : g = f := List.inj_on_of_nodup_map h hgv hf hgname
      rw [← hgf]
      exact hgext
    · intro hext
      rw [List.mem_map]
      refine ⟨f, ?_, rfl⟩
      rw [markdownFiles]
      exact List.mem_filter.mpr ⟨hf, by simp [hext]⟩
  by_cases hc : f.extension = mdExt
  · rw [if_pos (hiff.mpr hc), if_pos hc]
  · rw [if_neg (fun hm => hc (hiff.mp hm)), if_neg hc]

/-- Witness for C7: in a three-file scan where document B's write fails,
documents A and C are still rewritten and B is left unchanged. -/
theorem c7_witness :
    processAllFiles ["#foo".toList]
      [⟨"a".toList, "md".toList, "foo a".toList, false, false⟩,
       ⟨"b".toList, "md".toList, "foo b".toList, false, true⟩,
       ⟨"c".toList, "md".toList, "foo c".toList, false, false⟩]
      = [⟨"a".toList, "md".toList, "#foo a".toList, false, false⟩,
         ⟨"b".toList, "md".toList, "foo b".toList, false, true⟩,
         ⟨"c".toList, "md".toList, "#foo c".toList, false, false⟩] := by
  rw [c7_batch_isolation _ _ (by decide)]
  decide

end AutoTagWords

namespace AutoTagWords

theorem slice_lower_get {t w : List Char} {a n : Nat}
    (h : ((t.drop a).take n).map lowerChar = w) {k : Nat} (hk : k < n) :
    t[a + k]?.map lowerChar = w[k]? := by
  have hcong := congrArg (fun l => l[k]?) h
  simpa [List.getElem?_map, List.getElem?_take_of_lt hk, List.getElem?_drop] using hcong

theorem char_of_lower {t : List Char} {j : Nat} {ch : Char}
    (h : t[j]?.map lowerChar = some ch) :
    ∃ c, t[j]? = some c ∧ lowerChar c = ch := by
  cases hj : t[j]? with
  | none => rw [hj] at h; simp at h
  | some c =>
    rw [hj] at h
    exact ⟨c, rfl, by simpa using h⟩

theorem isWordAt_of_lower {t : List Char} {j : Nat} {ch : Char}
    (h : t[j]?.map lowerChar = some ch) (hch : isWordChar ch = true) :
    isWordAt t j = true := by
  obtain ⟨c, hc, hlc⟩ := char_of_lower h
  unfold isWordAt
  rw [hc]
  show isWordChar c = true
  rw [← isWordChar_lowerChar, hlc]
  exact hch

theorem project_any_casing_rewrite {cs : List Char}
    (h : cs.map lowerChar = "project".toList) :
    rewritePass ["#project".toList] cs = ("#project".toList, true) := by
  have hL : ("project".toList).length = 7 := by decide
  have hlen : cs.length = 7 := by
    have := congrArg List.length h
    simpa using this
  have hslice : ((cs.drop 0).take 7).map lowerChar = "project".toList := by
    rw [List.drop_zero, List.take_of_length_le (le_of_eq hlen)]
    exact h
  have hget : ∀ k : Nat, k < 7 → cs[k]?.map lowerChar = ("project".toList)[k]? := by
    intro k hk
    have := slice_lower_get hslice hk
    simpa using this
  have hm0 : matchAt "project".toList cs 0 = true := by
    rw [matchAt_iff, hL]
    refine ⟨by omega, ?_, rfl, ?_, ?_⟩
    · exact hslice
    · have h0 : cs[0]?.map lowerChar = some 'p' := by
        rw [hget 0 (by omega)]
        decide
      have hw0 : isWordAt cs 0 = true := isWordAt_of_lower h0 (by decide)
      unfold boundaryAt prevIsWord
      rw [if_pos rfl, hw0]
      rfl
    · show boundaryAt cs 7 = true
      have h6 : cs[6]?.map lowerChar = some 't' := by
        rw [hget 6 (by omega)]
        decide
      have hw6 : isWordAt cs 6 = true := isWordAt_of_lower h6 (by decide)
      have hw7 : isWordAt cs 7 = false := by
        unfold isWordAt
        rw [List.getElem?_eq_none (by omega)]
      unfold boundaryAt prevIsWord
      rw [if_neg (by omega), show (7 : Nat) - 1 = 6 from rfl, hw6, hw7]
      rfl
  have hrest : ∀ q, 1 ≤ q → q ≤ cs.length → matchAt "project".toList cs q = false := by
    intro q h1 hq
    by_contra hb
    rw [Bool.not_eq_false, matchAt_iff, hL] at hb
    have := hb.1
    omega
  have hscan : scanPos "project".toList cs = [0] := scanPos_of_match_zero hm0 hrest
  have hnodollar : '$' ∉ '#' :: "project".toList := by decide
  have hrepl : jsReplaceAll "project".toList ('#' :: "project".toList) cs
      = "#project".toList := by
    unfold jsReplaceAll
    rw [hscan]
    unfold spliceAux
    rw [getSubstitution_of_no_dollar hnodollar, hL]
    unfold spliceAux
    have hdrop : cs.drop (0 + 7) = [] := List.drop_eq_nil_of_le (by omega)
    rw [hdrop]
    simp only [Nat.sub_self, List.take_zero, List.nil_append, List.append_nil]
    decide
  have hw : bareWord "#project".toList = "project".toList := by decide
  have hne : ¬("#project".toList = cs) := by
    intro heq
    have := congrArg List.length heq
    rw [hlen] at this
    exact absurd this (by decide)
  unfold rewritePass
  rw [List.foldl_cons, List.foldl_nil]
  simp only [tagStep, hw]
  rw [hrepl, if_neg hne]

theorem project_match_no_overlap_projection {t : List Char} {i : Nat}
    (hocc : ((t.drop i).take 10).map lowerChar = "projection".toList)
    {p : Nat} (hp : p ∈ scanPos (bareWord "#project".toList) t) :
    p + 7 ≤ i ∨ i + 10 ≤ p := by
  have hL : ("project".toList).length = 7 := by decide
  have hw : bareWord "#project".toList = "project".toList := by decide
  rw [hw] at hp
  have hm := mem_scanPos hp
  rw [matchAt_iff, hL] at hm
  obtain ⟨hplen, hslice, hhash, hb0, hb7⟩ := hm
  have hmatch : ∀ k, k < 7 → t[p + k]?.map lowerChar = ("project".toList)[k]? :=
    fun k hk => slice_lower_get hslice hk
  have hoccpt : ∀ k, k < 10 → t[i + k]?.map lowerChar = ("projection".toList)[k]? :=
    fun k hk => slice_lower_get hocc hk
  by_contra hcon
  push_neg at hcon
  obtain ⟨hlt1, hlt2⟩ := hcon
  rcases Nat.lt_trichotomy p i with hpi | heq | hip
  · obtain ⟨k, rfl⟩ : ∃ k, i = p + k := ⟨i - p, by omega⟩
    have hk1 : 1 ≤ k := by omega
    have hk6 : k < 7 := by omega
    have e1 := hoccpt 0 (by omega)
    rw [Nat.add_zero] at e1
    have e2 := hmatch k hk6
    have e3 := e1.symm.trans e2
    interval_cases k <;> exact absurd e3 (by decide)
  · subst heq
    have e6 : t[p + 6]?.map lowerChar = some 't' := by
      rw [hmatch 6 (by omega)]
      decide
    have e7 : t[p + 7]?.map lowerChar = some 'i' := by
      rw [hoccpt 7 (by omega)]
      decide
    have hw6 : isWordAt t (p + 6) = true := isWordAt_of_lower e6 (by decide)
    have hw7 : isWordAt t (p + 7) = true := isWordAt_of_lower e7 (by decide)
    unfold boundaryAt prevIsWord at hb7
    rw [if_neg (by omega), show p + 7 - 1 = p + 6 from by omega, hw6, hw7] at hb7
    exact absurd hb7 (by decide)
  · obtain ⟨k, rfl⟩ : ∃ k, p = i + k := ⟨p - i, by omega⟩
    have hk1 : 1 ≤ k := by omega
    have hk9 : k < 10 := by omega
    have e1 := hmatch 0 (by omega)
    rw [Nat.add_zero] at e1
    have e2 := hoccpt k hk9
    have e3 := e1.symm.trans e2
    interval_cases k <;> exact absurd e3 (by decide)

/-- C8: word-boundary and case-folding correctness for `#project`.  (1) Any
casing of the standalone word `project` (any text whose ASCII lower-casing is
`project`) is rewritten to exactly `#project` with `changed = true` — the
original casing is discarded.  (2) The global scan for `#project` never
matches overlapping any case-insensitive occurrence of `projection` (so such
occurrences are never rewritten): a match starting inside it would need a `p`
where `projection` has none, a match starting before it clashes with its
initial `p`, and a match aligned with it fails the trailing `\b` because the
following `i` is a word character.  (3) Concretely, `"a projection b"` is left
unchanged and `"a Project b"` becomes `"a #project b"`. -/
theorem c8_boundary_and_case_folding :
    (∀ c : List Char, c.map lowerChar = "project".toList →
        rewritePass ["#project".toList] c = ("#project".toList, true)) ∧
    (∀ (t : List Char) (i : Nat),
        ((t.drop i).take 10).map lowerChar = "projection".toList →
        ∀ p ∈ scanPos (bareWord "#project".toList) t, p + 7 ≤ i ∨ i + 10 ≤ p) ∧
    rewritePass ["#project".toList] "a projection b".toList
      = ("a projection b".toList, false) ∧
    rewritePass ["#project".toList] "a Project b".toList
      = ("a #project b".toList, true) :=
  ⟨fun _ h => project_any_casing_rewrite h,
   fun _ _ hocc _ hp => project_match_no_overlap_projection hocc hp,
   by decide, by decide⟩

/-- Witness for C8 at the fully upper-cased occurrence. -/
theorem c8_witness :
    rewritePass ["#project".toList] "PROJECT".toList = ("#project".toList, true) :=
  c8_boundary_and_case_folding.1 _ (by decide)

end AutoTagWords
